import Mathlib

/-!
Shallow embedding of the RadarCamCalib geometric calibration engine
(`src/calibration.py`, `src/calib_manager.py`) over the real numbers,
together with theorems settling the specification claims.

The Python floating-point arithmetic is idealised as exact real
arithmetic; every numeric literal of the source appears verbatim.
-/

noncomputable section
open scoped Classical

/-- Camera intrinsic and extrinsic parameters (`CameraParams` dataclass). -/
structure CameraParams where
  height : ℝ
  pitch : ℝ
  fx : ℝ
  fy : ℝ
  cx : ℝ
  cy : ℝ

/-- Dataclass defaults of `CameraParams`. -/
def camDefault : CameraParams :=
  { height := 1.5, pitch := 0.0, fx := 1000.0, fy := 1000.0, cx := 640.0, cy := 480.0 }

/-- Radar mounting parameters (`RadarParams` dataclass). -/
structure RadarParams where
  yaw : ℝ
  elev : ℝ
  x_offset : ℝ
  y_offset : ℝ

/-- Dataclass defaults of `RadarParams`. -/
def radarDefault : RadarParams :=
  { yaw := 0.0, elev := 0.0, x_offset := 3.5, y_offset := 0.0 }

/-- `CoordinateTransformer`: owns one camera and one radar parameter set. -/
structure CoordinateTransformer where
  camera : CameraParams
  radar : RadarParams

/-- Default-constructed transformer (`CoordinateTransformer()`). -/
def transformerDefault : CoordinateTransformer :=
  { camera := camDefault, radar := radarDefault }

/-- `CoordinateTransformer.radar_to_bev`: rotate the radar point by `yaw`,
then remap forward/left into BEV right/forward and add the mount offsets. -/
def radar_to_bev (t : CoordinateTransformer) (x_radar y_radar : ℝ) : ℝ × ℝ :=
  let cos_yaw := Real.cos t.radar.yaw
  let sin_yaw := Real.sin t.radar.yaw
  let x_rot_fwd := x_radar * cos_yaw - y_radar * sin_yaw
  let y_rot_left := x_radar * sin_yaw + y_radar * cos_yaw
  (-y_rot_left + t.radar.x_offset, x_rot_fwd + t.radar.y_offset)

/-- `CoordinateTransformer.bev_to_radar`: subtract the offsets, invert the
axis remap, then apply the inverse (transposed) rotation. -/
def bev_to_radar (t : CoordinateTransformer) (x_bev y_bev : ℝ) : ℝ × ℝ :=
  let x_rot_fwd := y_bev - t.radar.y_offset
  let y_rot_left := t.radar.x_offset - x_bev
  let cos_yaw := Real.cos t.radar.yaw
  let sin_yaw := Real.sin t.radar.yaw
  (x_rot_fwd * cos_yaw + y_rot_left * sin_yaw,
   -x_rot_fwd * sin_yaw + y_rot_left * cos_yaw)

/-- `CoordinateTransformer.get_radar_bev_homography`: the closed-form
radar→BEV matrix, returned as a list of rows exactly as in the source. -/
def get_radar_bev_homography (t : CoordinateTransformer) : List (List ℝ) :=
  let cos_y := Real.cos t.radar.yaw
  let sin_y := Real.sin t.radar.yaw
  [[-sin_y, -cos_y, t.radar.x_offset],
   [cos_y, -sin_y, t.radar.y_offset],
   [0.0, 0.0, 1.0]]

/-- Entry `i j` of a row-major list-of-lists matrix (0 outside bounds). -/
def hEntry (H : List (List ℝ)) (i j : ℕ) : ℝ :=
  (H.getD i []).getD j 0

/-- Multiply a 3×3 list-of-lists matrix by the homogeneous column `[x, y, 1]`. -/
def hApply (H : List (List ℝ)) (x y : ℝ) : ℝ × ℝ × ℝ :=
  (hEntry H 0 0 * x + hEntry H 0 1 * y + hEntry H 0 2,
   hEntry H 1 0 * x + hEntry H 1 1 * y + hEntry H 1 2,
   hEntry H 2 0 * x + hEntry H 2 1 * y + hEntry H 2 2)

/-- A line segment given by two pixel endpoints, as stored by
`VanishingPointCalibrator.add_line`. -/
structure Line2D where
  x1 : ℝ
  y1 : ℝ
  x2 : ℝ
  y2 : ℝ

/-- A normalized homogeneous line `a x + b y + c = 0`. -/
structure HLine where
  a : ℝ
  b : ℝ
  c : ℝ

/-- The homogeneous-line conversion loop of `compute_vanishing_point`:
each segment becomes `(y1-y2, x2-x1, x1*y2-x2*y1)` scaled by its norm
`sqrt(a*a+b*b)`; segments whose norm is not `> 1e-6` are dropped. -/
def usableLines (lines : List Line2D) : List HLine :=
  lines.filterMap fun l =>
    let a := l.y1 - l.y2
    let b := l.x2 - l.x1
    let c := l.x1 * l.y2 - l.x2 * l.y1
    let nrm := Real.sqrt (a * a + b * b)
    if 1 / 1000000 < nrm then some ⟨a / nrm, b / nrm, c / nrm⟩ else none

/-- `np.cross` of two homogeneous lines (their intersection point, in
homogeneous coordinates). -/
def cross3 (p q : HLine) : ℝ × ℝ × ℝ :=
  (p.b * q.c - p.c * q.b, p.c * q.a - p.a * q.c, p.a * q.b - p.b * q.a)

/-- Sum of `a*a` over the usable lines (entry of the normal matrix `AᵀA`). -/
def sAA (hs : List HLine) : ℝ := (hs.map fun h => h.a * h.a).sum

/-- Sum of `a*b` over the usable lines (entry of the normal matrix `AᵀA`). -/
def sAB (hs : List HLine) : ℝ := (hs.map fun h => h.a * h.b).sum

/-- Sum of `b*b` over the usable lines (entry of the normal matrix `AᵀA`). -/
def sBB (hs : List HLine) : ℝ := (hs.map fun h => h.b * h.b).sum

/-- Sum of `a*c` over the usable lines (negated entry of `Aᵀb`). -/
def sAC (hs : List HLine) : ℝ := (hs.map fun h => h.a * h.c).sum

/-- Sum of `b*c` over the usable lines (negated entry of `Aᵀb`). -/
def sBC (hs : List HLine) : ℝ := (hs.map fun h => h.b * h.c).sum

/-- The least-squares solution of `[a_i b_i] [x, y]ᵀ = -c_i` computed by
`np.linalg.lstsq`, written through the normal equations
`AᵀA [x, y]ᵀ = Aᵀ b` and Cramer's rule.  (The rank-deficient branch of
`lstsq` is not exercised by any claim.) -/
def lstsqVP (hs : List HLine) : ℝ × ℝ :=
  let det := sAA hs * sBB hs - sAB hs * sAB hs
  ((-sAC hs * sBB hs - sAB hs * -sBC hs) / det,
   (sAA hs * -sBC hs - -sAC hs * sAB hs) / det)

/-- `VanishingPointCalibrator.compute_vanishing_point`: needs ≥ 2 stored
lines and ≥ 2 usable (non-degenerate) lines; exactly two usable lines are
intersected by the homogeneous cross product (undefined when its third
component has absolute value `< 1e-9`); more than two are solved by least
squares. -/
def compute_vanishing_point (lines : List Line2D) : Option (ℝ × ℝ) :=
  if lines.length < 2 then none
  else
    match usableLines lines with
    | [] => none
    | [_] => none
    | [l1, l2] =>
      let vp := cross3 l1 l2
      if |vp.2.2| < 1 / 1000000000 then none
      else some (vp.1 / vp.2.2, vp.2.1 / vp.2.2)
    | hs => some (lstsqVP hs)

/-- `VanishingPointCalibrator.compute_pitch`: `atan((cy - vp_y) / fy)`,
undefined when the vanishing point is undefined. -/
def compute_pitch (lines : List Line2D) (cy fy : ℝ) : Option ℝ :=
  (compute_vanishing_point lines).map fun vp => Real.arctan ((cy - vp.2) / fy)

/-- Camera lateral mount position in the vehicle frame (`cam_x_pos = 0.0`
in both `image_to_bev` and `bev_to_image`). -/
def cam_x_pos : ℝ := 0.0

/-- Camera forward mount position in the vehicle frame (`cam_y_pos = 3.5`
in both `image_to_bev` and `bev_to_image`). -/
def cam_y_pos : ℝ := 3.5

/-- The vehicle-frame ray of `image_to_bev`: normalized pixel ray,
un-pitched by `-pitch`, remapped into (right, forward, up) axes. -/
def rayVeh (cam : CameraParams) (u v : ℝ) : ℝ × ℝ × ℝ :=
  let x_norm := (u - cam.cx) / cam.fx
  let y_norm := (v - cam.cy) / cam.fy
  let nrm := Real.sqrt (x_norm ^ 2 + y_norm ^ 2 + 1)
  let xc := x_norm / nrm
  let yc := y_norm / nrm
  let zc := 1 / nrm
  let cos_p := Real.cos (-cam.pitch)
  let sin_p := Real.sin (-cam.pitch)
  (xc, yc * sin_p + zc * cos_p, -(yc * cos_p - zc * sin_p))

/-- The up-component `ray_veh[2]` of the `image_to_bev` ray. -/
def rayUpComponent (cam : CameraParams) (u v : ℝ) : ℝ :=
  (rayVeh cam u v).2.2

/-- The ground-intersection parameter `t = -cam_z_pos / ray_veh[2]` of
`image_to_bev`. -/
def groundT (cam : CameraParams) (u v : ℝ) : ℝ :=
  -cam.height / rayUpComponent cam u v

/-- `CoordinateTransformer.image_to_bev`: intersect the pixel ray with the
ground plane; absent when the ray points at or above the horizon or the
intersection parameter is negative. -/
def image_to_bev (t : CoordinateTransformer) (u v : ℝ) : Option (ℝ × ℝ) :=
  let rv := rayVeh t.camera u v
  if 0 ≤ rv.2.2 then none
  else
    let tt := -t.camera.height / rv.2.2
    if tt < 0 then none
    else some (cam_x_pos + tt * rv.1, cam_y_pos + tt * rv.2.1)

/-- The camera-frame depth `z_cam` computed by `bev_to_image`. -/
def camDepth (cam : CameraParams) (_x_bev y_bev : ℝ) : ℝ :=
  cam.height * Real.sin cam.pitch + (y_bev - cam_y_pos) * Real.cos cam.pitch

/-- `CoordinateTransformer.bev_to_image`: vector from the camera mount to
the ground point, remapped into camera axes, pitched, and
perspective-projected; absent when the depth is `<= 0.1`. -/
def bev_to_image (t : CoordinateTransformer) (x_bev y_bev : ℝ) : Option (ℝ × ℝ) :=
  let cam := t.camera
  let x_cam := x_bev - cam_x_pos
  let y_cam := cam.height * Real.cos cam.pitch - (y_bev - cam_y_pos) * Real.sin cam.pitch
  let z_cam := camDepth cam x_bev y_bev
  if z_cam ≤ 0.1 then none
  else some (cam.fx * (x_cam / z_cam) + cam.cx, cam.fy * (y_cam / z_cam) + cam.cy)

/-- One measured point correspondence handed to `optimize_pitch`
(the dict keys `radar_x`, `radar_y`, `pixel_u`, `pixel_v`). -/
structure RPair where
  radar_x : ℝ
  radar_y : ℝ
  pixel_u : ℝ
  pixel_v : ℝ

/-- Replace the transformer's camera pitch (the optimizer's
`self.camera.pitch = pitch` assignment). -/
def withPitch (t : CoordinateTransformer) (p : ℝ) : CoordinateTransformer :=
  { t with camera := { t.camera with pitch := p } }

/-- The candidate pitch derived from a candidate vanishing-point y:
`atan((cy - vp_y) / fy)`. -/
def candPitch (cam : CameraParams) (vp_y : ℝ) : ℝ :=
  Real.arctan ((cam.cy - vp_y) / cam.fy)

/-- Reprojection error of one correspondence inside the optimizer loop:
squared pixel distance when the projection is defined, otherwise the
fixed penalty `100000.0`. -/
def pairError (t : CoordinateTransformer) (p : RPair) : ℝ :=
  let xy := radar_to_bev t p.radar_x p.radar_y
  match bev_to_image t xy.1 xy.2 with
  | some uv => (uv.1 - p.pixel_u) ^ 2 + (uv.2 - p.pixel_v) ^ 2
  | none => 100000.0

/-- The optimizer's `valid_count` contribution of one correspondence:
1 when its projection is defined, else 0. -/
def pairValid (t : CoordinateTransformer) (p : RPair) : ℕ :=
  let xy := radar_to_bev t p.radar_x p.radar_y
  match bev_to_image t xy.1 xy.2 with
  | some _ => 1
  | none => 0

/-- Total error accumulated for one candidate `vp_y` (the inner loop of
`optimize_pitch`, run with the candidate pitch installed). -/
def candError (t : CoordinateTransformer) (pairs : List RPair) (vp_y : ℝ) : ℝ :=
  (pairs.map (pairError (withPitch t (candPitch t.camera vp_y)))).sum

/-- `valid_count` accumulated for one candidate `vp_y`. -/
def candValid (t : CoordinateTransformer) (pairs : List RPair) (vp_y : ℝ) : ℕ :=
  (pairs.map (pairValid (withPitch t (candPitch t.camera vp_y)))).sum

/-- The vanishing-point y implied by the current pitch:
`vp_y = cy - fy * tan(pitch)`. -/
def currentVP (cam : CameraParams) : ℝ :=
  cam.cy - cam.fy * Real.tan cam.pitch

/-- `np.linspace(vp_y - range, vp_y + range, 101)`: the 101 evenly spaced
candidate vanishing-point y values. -/
def searchVals (vp0 range : ℝ) : List ℝ :=
  (List.range 101).map fun i : ℕ => (vp0 - range) + (i : ℝ) * (2 * range / 100)

/-- One iteration of the optimizer's scan: keep the candidate when it has
at least one defined projection and strictly improves the running minimum
(`min_error` starts at `float('inf')`, modelled as `none`). -/
def optStep (t : CoordinateTransformer) (pairs : List RPair)
    (s : ℝ × Option ℝ) (vp_y : ℝ) : ℝ × Option ℝ :=
  let e := candError t pairs vp_y
  let k := candValid t pairs vp_y
  match s.2 with
  | none => if 0 < k then (vp_y, some e) else s
  | some m => if 0 < k ∧ e < m then (vp_y, some e) else s

/-- The `best_vp_y` selected by the scan of `optimize_pitch`. -/
def bestVP (t : CoordinateTransformer) (pairs : List RPair) (range : ℝ) : ℝ :=
  ((searchVals (currentVP t.camera) range).foldl (optStep t pairs)
    (currentVP t.camera, none)).1

/-- `CoordinateTransformer.optimize_pitch`: grid search over candidate
vanishing-point y values; returns the updated transformer together with
the returned pitch.  An empty correspondence list returns the current
pitch with the transformer untouched. -/
def optimize_pitch (t : CoordinateTransformer) (pairs : List RPair)
    (range : ℝ) : CoordinateTransformer × ℝ :=
  match pairs with
  | [] => (t, t.camera.pitch)
  | _ =>
    let fp := candPitch t.camera (bestVP t pairs range)
    (withPitch t fp, fp)

/-- `CalibrationManager.compute_pitch_from_lanes` (state on the camera
parameters): clears the calibrator, adds each lane `((x1,y1),(x2,y2))`,
computes pitch from the vanishing point, and stores it only when defined.
Returns the updated camera and the computed pitch. -/
def compute_pitch_from_lanes (cam : CameraParams)
    (lanes : List ((ℝ × ℝ) × (ℝ × ℝ))) : CameraParams × Option ℝ :=
  let lines := lanes.map fun l => Line2D.mk l.1.1 l.1.2 l.2.1 l.2.2
  match compute_pitch lines cam.cy cam.fy with
  | some p => ({ cam with pitch := p }, some p)
  | none => (cam, none)

/-- The least-squares objective of the `>2` lines branch: the sum of
squared algebraic residuals `(a_i x + b_i y + c_i)^2`. -/
def vpObjective (hs : List HLine) (p : ℝ × ℝ) : ℝ :=
  (hs.map fun h => (h.a * p.1 + h.b * p.2 + h.c) ^ 2).sum

/-- C1: for every yaw, every pair of offsets and every radar point,
`bev_to_radar (radar_to_bev (x, y)) = (x, y)` exactly (hence within 1e-9);
in particular with yaw=0, x_offset=3.5, y_offset=0.0 the radar point
(10, 2) maps to the BEV point (1.5, 10.0) and back to (10.0, 2.0). -/
theorem radar_bev_roundtrip :
    (∀ t : CoordinateTransformer, ∀ x y : ℝ,
      bev_to_radar t (radar_to_bev t x y).1 (radar_to_bev t x y).2 = (x, y)) ∧
    radar_to_bev transformerDefault 10 2 = (1.5, 10.0) ∧
    bev_to_radar transformerDefault 1.5 10.0 = (10.0, 2.0) := by
  refine ⟨fun t x y => ?_, ?_, ?_⟩
  · have hsc := Real.sin_sq_add_cos_sq t.radar.yaw
    simp only [radar_to_bev, bev_to_radar]
    refine Prod.ext ?_ ?_
    · linear_combination x * hsc
    · linear_combination y * hsc
  · simp only [radar_to_bev, transformerDefault, radarDefault]
    norm_num
  · simp only [bev_to_radar, transformerDefault, radarDefault]
    norm_num

/-- C3: `get_radar_bev_homography` returns exactly the matrix
`[[-sin yaw, -cos yaw, x_offset], [cos yaw, -sin yaw, y_offset], [0,0,1]]`,
and multiplying it by the homogeneous vector `[x, y, 1]` reproduces
`radar_to_bev` on every radar point. -/
theorem radar_bev_homography_correct :
    ∀ t : CoordinateTransformer,
      get_radar_bev_homography t =
        [[-Real.sin t.radar.yaw, -Real.cos t.radar.yaw, t.radar.x_offset],
         [Real.cos t.radar.yaw, -Real.sin t.radar.yaw, t.radar.y_offset],
         [0.0, 0.0, 1.0]] ∧
      ∀ x y : ℝ,
        hApply (get_radar_bev_homography t) x y =
          ((radar_to_bev t x y).1, (radar_to_bev t x y).2, 1) := by
  intro t
  refine ⟨rfl, fun x y => ?_⟩
  simp only [hApply, hEntry, get_radar_bev_homography, radar_to_bev,
    List.getD, List.getElem?_cons_zero, List.getElem?_cons_succ,
    Option.getD_some]
  refine Prod.ext ?_ (Prod.ext ?_ ?_) <;> simp <;> ring

/-- C7: `image_to_bev` is absent exactly when the ray's up-component is
`>= 0` or the ground-intersection parameter is negative, and
`bev_to_image` is absent exactly when the camera-frame depth is `<= 0.1`;
both are total functions into an option type, so absence is the only
failure mode (no exception). -/
theorem projection_undefined_characterization :
    ∀ (t : CoordinateTransformer) (u v x y : ℝ),
      (image_to_bev t u v = none ↔
        0 ≤ rayUpComponent t.camera u v ∨ groundT t.camera u v < 0) ∧
      (bev_to_image t x y = none ↔ camDepth t.camera x y ≤ 0.1) := by
  intro t u v x y
  constructor
  · unfold image_to_bev groundT rayUpComponent
    by_cases h1 : 0 ≤ (rayVeh t.camera u v).2.2
    · simp [h1]
    · by_cases h2 : -t.camera.height / (rayVeh t.camera u v).2.2 < 0 <;>
        simp [h1, h2]
  · unfold bev_to_image
    by_cases h : camDepth t.camera x y ≤ 0.1 <;> simp [h]

/-- C10: `image_to_bev` and `bev_to_image` depend only on the camera
parameters: two transformers with the same camera but arbitrary radar
parameters agree on every pixel and every BEV point, and the camera mount
used by both is hard-coded at lateral `0.0` and forward `3.5`. -/
theorem image_transforms_ignore_radar :
    cam_x_pos = 0.0 ∧ cam_y_pos = 3.5 ∧
    ∀ t1 t2 : CoordinateTransformer, t1.camera = t2.camera →
      ∀ u v x y : ℝ,
        image_to_bev t1 u v = image_to_bev t2 u v ∧
        bev_to_image t1 x y = bev_to_image t2 x y := by
  refine ⟨rfl, rfl, fun t1 t2 h u v x y => ?_⟩
  unfold image_to_bev bev_to_image
  rw [h]
  exact ⟨rfl, rfl⟩

/-- Closed instance of `image_transforms_ignore_radar`: two transformers
sharing the default camera but with different radar mounts agree on a
concrete pixel and a concrete BEV point. -/
theorem image_transforms_ignore_radar_witness :
    (({ camera := camDefault, radar := radarDefault } :
        CoordinateTransformer).camera =
      ({ camera := camDefault, radar := ⟨1, 2, 3, 4⟩ } :
        CoordinateTransformer).camera) ∧
    image_to_bev { camera := camDefault, radar := radarDefault } 640 700 =
      image_to_bev { camera := camDefault, radar := ⟨1, 2, 3, 4⟩ } 640 700 ∧
    bev_to_image { camera := camDefault, radar := radarDefault } 0 20 =
      bev_to_image { camera := camDefault, radar := ⟨1, 2, 3, 4⟩ } 0 20 := by
  refine ⟨rfl, ?_, ?_⟩
  · exact (image_transforms_ignore_radar.2.2 _ _ rfl 640 700 0 20).1
  · exact (image_transforms_ignore_radar.2.2 _ _ rfl 640 700 0 20).2

/-- C9: a failed pitch computation never modifies the stored pitch:
`optimize_pitch` on an empty correspondence list returns the current
pitch and leaves the transformer untouched, and
`compute_pitch_from_lanes` leaves the camera untouched whenever the
vanishing-point pitch computation is undefined. -/
theorem failed_pitch_leaves_state :
    (∀ (t : CoordinateTransformer) (range : ℝ),
      optimize_pitch t [] range = (t, t.camera.pitch)) ∧
    (∀ (cam : CameraParams) (lanes : List ((ℝ × ℝ) × (ℝ × ℝ))),
      (compute_pitch_from_lanes cam lanes).2 = none →
        (compute_pitch_from_lanes cam lanes).1 = cam) := by
  refine ⟨fun t range => rfl, fun cam lanes h => ?_⟩
  unfold compute_pitch_from_lanes at h ⊢
  rcases hcp : compute_pitch (lanes.map fun l => Line2D.mk l.1.1 l.1.2 l.2.1 l.2.2)
      cam.cy cam.fy with _ | p
  · simp [hcp]
  · simp [hcp] at h

/-- Closed instance of `failed_pitch_leaves_state`: with no lanes the
pitch computation is undefined and the default camera is returned
unchanged (and `optimize_pitch` on no pairs returns the current pitch). -/
theorem failed_pitch_leaves_state_witness :
    optimize_pitch transformerDefault [] 50 =
      (transformerDefault, transformerDefault.camera.pitch) ∧
    (compute_pitch_from_lanes camDefault []).2 = none ∧
    (compute_pitch_from_lanes camDefault []).1 = camDefault := by
  have h2 : (compute_pitch_from_lanes camDefault []).2 = none := by
    simp [compute_pitch_from_lanes, compute_pitch, compute_vanishing_point]
  exact ⟨failed_pitch_leaves_state.1 transformerDefault 50, h2,
    failed_pitch_leaves_state.2 camDefault [] h2⟩

/-- `10 ≤ √200`, hence the segment norms of the concrete example pass
the `> 1e-6` filter. -/
lemma sqrt200_large : (1 : ℝ) / 1000000 < Real.sqrt 200 := by
  have h10 : (10 : ℝ) ≤ Real.sqrt 200 := by
    have := Real.sqrt_le_sqrt (show (100 : ℝ) ≤ 200 by norm_num)
    rwa [show Real.sqrt 100 = 10 by
      rw [show (100 : ℝ) = 10 ^ 2 by norm_num, Real.sqrt_sq (by norm_num : (0:ℝ) ≤ 10)]] at this
  linarith

/-- The two concrete example segments normalize to explicit homogeneous
lines with norm `√200`. -/
lemma usable_concrete :
    usableLines [⟨0, 0, 10, 10⟩, ⟨0, 10, 10, 0⟩] =
      [⟨-10 / Real.sqrt 200, 10 / Real.sqrt 200, 0⟩,
       ⟨10 / Real.sqrt 200, 10 / Real.sqrt 200, -100 / Real.sqrt 200⟩] := by
  unfold usableLines
  simp only [List.filterMap_cons, List.filterMap_nil]
  norm_num [sqrt200_large]

/-- The concrete two-line example yields the vanishing point `(5, 5)`. -/
lemma vp_concrete :
    compute_vanishing_point [⟨0, 0, 10, 10⟩, ⟨0, 10, 10, 0⟩] = some (5, 5) := by
  have hs2 : Real.sqrt 200 * Real.sqrt 200 = 200 :=
    Real.mul_self_sqrt (by norm_num)
  have hspos : (0 : ℝ) < Real.sqrt 200 := Real.sqrt_pos.mpr (by norm_num)
  have hz : (-10 / Real.sqrt 200) * (10 / Real.sqrt 200) -
      (10 / Real.sqrt 200) * (10 / Real.sqrt 200) = -1 := by
    field_simp
    linarith [hs2]
  have hx : (10 / Real.sqrt 200) * (-100 / Real.sqrt 200) -
      (0 : ℝ) * (10 / Real.sqrt 200) = -5 := by
    field_simp
    linarith [hs2]
  have hy : (0 : ℝ) * (10 / Real.sqrt 200) -
      (-10 / Real.sqrt 200) * (-100 / Real.sqrt 200) = -5 := by
    field_simp
    linarith [hs2]
  unfold compute_vanishing_point
  rw [if_neg (by norm_num), usable_concrete]
  simp only [cross3, hz, hx, hy]
  rw [if_neg (by norm_num)]
  norm_num

/-- `Σ a_i (a_i x + b_i y + c_i)` expressed through the normal-matrix sums. -/
lemma sum_a_residual (hs : List HLine) (p : ℝ × ℝ) :
    (hs.map fun h => h.a * (h.a * p.1 + h.b * p.2 + h.c)).sum =
      sAA hs * p.1 + sAB hs * p.2 + sAC hs := by
  induction hs with
  | nil => simp [sAA, sAB, sAC]
  | cons h t ih =>
    simp only [sAA, sAB, sAC, List.map_cons, List.sum_cons] at ih ⊢
    linear_combination ih

/-- `Σ b_i (a_i x + b_i y + c_i)` expressed through the normal-matrix sums. -/
lemma sum_b_residual (hs : List HLine) (p : ℝ × ℝ) :
    (hs.map fun h => h.b * (h.a * p.1 + h.b * p.2 + h.c)).sum =
      sAB hs * p.1 + sBB hs * p.2 + sBC hs := by
  induction hs with
  | nil => simp [sAB, sBB, sBC]
  | cons h t ih =>
    simp only [sAB, sBB, sBC, List.map_cons, List.sum_cons] at ih ⊢
    linear_combination ih

/-- Quadratic expansion of the least-squares objective around a point. -/
lemma vpObjective_expand (hs : List HLine) (p q : ℝ × ℝ) :
    vpObjective hs q = vpObjective hs p
      + (hs.map fun h => (h.a * (q.1 - p.1) + h.b * (q.2 - p.2)) ^ 2).sum
      + 2 * (q.1 - p.1) * (hs.map fun h => h.a * (h.a * p.1 + h.b * p.2 + h.c)).sum
      + 2 * (q.2 - p.2) * (hs.map fun h => h.b * (h.a * p.1 + h.b * p.2 + h.c)).sum := by
  induction hs with
  | nil => simp [vpObjective]
  | cons h t ih =>
    simp only [vpObjective, List.map_cons, List.sum_cons] at ih ⊢
    linear_combination ih

/-- A point satisfying the normal equations minimizes the least-squares
objective. -/
lemma vpObjective_optimal (hs : List HLine) (p : ℝ × ℝ)
    (h1 : sAA hs * p.1 + sAB hs * p.2 = -sAC hs)
    (h2 : sAB hs * p.1 + sBB hs * p.2 = -sBC hs) :
    ∀ q : ℝ × ℝ, vpObjective hs p ≤ vpObjective hs q := by
  intro q
  have hexp := vpObjective_expand hs p q
  rw [sum_a_residual, sum_b_residual] at hexp
  have hsq : (0 : ℝ) ≤
      (hs.map fun h => (h.a * (q.1 - p.1) + h.b * (q.2 - p.2)) ^ 2).sum := by
    apply List.sum_nonneg
    intro x hx
    obtain ⟨h, _, rfl⟩ := List.mem_map.mp hx
    positivity
  have e1 : sAA hs * p.1 + sAB hs * p.2 + sAC hs = 0 := by linarith
  have e2 : sAB hs * p.1 + sBB hs * p.2 + sBC hs = 0 := by linarith
  rw [e1, e2, mul_zero, mul_zero, add_zero, add_zero] at hexp
  linarith [hexp, hsq]

/-- `usableLines` has no more elements than the input line list. -/
lemma usableLines_length_le (lines : List Line2D) :
    (usableLines lines).length ≤ lines.length := by
  unfold usableLines
  exact List.length_filterMap_le _ _

/-- The Cramer-rule point of `lstsqVP` satisfies the normal equations of
the least-squares system whenever the normal matrix is invertible. -/
lemma lstsqVP_normal (hs : List HLine)
    (hdet : sAA hs * sBB hs - sAB hs * sAB hs ≠ 0) :
    sAA hs * (lstsqVP hs).1 + sAB hs * (lstsqVP hs).2 = -sAC hs ∧
    sAB hs * (lstsqVP hs).1 + sBB hs * (lstsqVP hs).2 = -sBC hs := by
  unfold lstsqVP
  constructor
  · field_simp
    ring
  · field_simp
    ring

/-- C4: `compute_vanishing_point` drops degenerate lines (norm not above
`1e-6`), is undefined with fewer than 2 usable lines or with 2 usable
lines whose cross product has third component below `1e-9`, intersects
exactly 2 usable lines by the normalized cross product, solves more than
2 usable lines by least squares (the returned point satisfies the normal
equations and minimizes the summed squared residuals), and returns
exactly `(5, 5)` on the concrete two-line example. -/
theorem compute_vanishing_point_correct :
    (∀ (l : Line2D) (lines : List Line2D),
      Real.sqrt ((l.y1 - l.y2) * (l.y1 - l.y2) + (l.x2 - l.x1) * (l.x2 - l.x1)) ≤
          1 / 1000000 →
        usableLines (l :: lines) = usableLines lines) ∧
    (∀ lines : List Line2D, (usableLines lines).length < 2 →
      compute_vanishing_point lines = none) ∧
    (∀ (lines : List Line2D) (l1 l2 : HLine), usableLines lines = [l1, l2] →
      (|(cross3 l1 l2).2.2| < 1 / 1000000000 →
        compute_vanishing_point lines = none) ∧
      (1 / 1000000000 ≤ |(cross3 l1 l2).2.2| →
        compute_vanishing_point lines =
          some ((cross3 l1 l2).1 / (cross3 l1 l2).2.2,
                (cross3 l1 l2).2.1 / (cross3 l1 l2).2.2))) ∧
    (∀ (lines : List Line2D) (hs : List HLine), usableLines lines = hs →
      2 < hs.length → sAA hs * sBB hs - sAB hs * sAB hs ≠ 0 →
      compute_vanishing_point lines = some (lstsqVP hs) ∧
      sAA hs * (lstsqVP hs).1 + sAB hs * (lstsqVP hs).2 = -sAC hs ∧
      sAB hs * (lstsqVP hs).1 + sBB hs * (lstsqVP hs).2 = -sBC hs ∧
      ∀ q : ℝ × ℝ, vpObjective hs (lstsqVP hs) ≤ vpObjective hs q) ∧
    compute_vanishing_point [⟨0, 0, 10, 10⟩, ⟨0, 10, 10, 0⟩] = some (5, 5) := by
  refine ⟨?_, ?_, ?_, ?_, vp_concrete⟩
  · intro l lines hnorm
    unfold usableLines
    rw [List.filterMap_cons]
    simp only [if_neg (not_lt.mpr hnorm)]
  · intro lines h
    unfold compute_vanishing_point
    by_cases hl : lines.length < 2
    · simp [hl]
    · rw [if_neg hl]
      rcases hu : usableLines lines with _ | ⟨a, _ | ⟨b, rest⟩⟩
      · rfl
      · rfl
      · rw [hu] at h
        simp only [List.length_cons] at h
        omega
  · intro lines l1 l2 hu
    have hle := usableLines_length_le lines
    rw [hu] at hle
    have hlen : ¬ lines.length < 2 := by
      simp only [List.length_cons, List.length_nil] at hle
      omega
    unfold compute_vanishing_point
    rw [if_neg hlen, hu]
    constructor
    · intro hlt
      simp only [if_pos hlt]
    · intro hge
      simp only [if_neg (not_lt.mpr hge)]
  · intro lines hs hu hlen hdet
    have hle := usableLines_length_le lines
    rw [hu] at hle
    have hl2 : ¬ lines.length < 2 := by omega
    have heq : compute_vanishing_point lines = some (lstsqVP hs) := by
      unfold compute_vanishing_point
      rw [if_neg hl2, hu]
      rcases hs with _ | ⟨a, _ | ⟨b, _ | ⟨c, rest⟩⟩⟩
      · simp at hlen
      · simp at hlen
      · simp at hlen
      · rfl
    refine ⟨heq, (lstsqVP_normal hs hdet).1, (lstsqVP_normal hs hdet).2, ?_⟩
    exact vpObjective_optimal hs (lstsqVP hs) (lstsqVP_normal hs hdet).1
      (lstsqVP_normal hs hdet).2

/-- Closed instance of `compute_vanishing_point_correct`: a degenerate
zero-length line is dropped, leaving fewer than 2 usable lines, so the
vanishing point is undefined; and the concrete example indeed evaluates
to `(5, 5)`. -/
theorem compute_vanishing_point_correct_witness :
    Real.sqrt (((3:ℝ) - 3) * (3 - 3) + ((7:ℝ) - 7) * (7 - 7)) ≤ 1 / 1000000 ∧
    usableLines [⟨7, 3, 7, 3⟩, ⟨7, 3, 7, 3⟩] = usableLines [(⟨7, 3, 7, 3⟩ : Line2D)] ∧
    (usableLines [⟨7, 3, 7, 3⟩, ⟨7, 3, 7, 3⟩]).length < 2 ∧
    compute_vanishing_point [⟨7, 3, 7, 3⟩, ⟨7, 3, 7, 3⟩] = none := by
  have hn : Real.sqrt (((3:ℝ) - 3) * (3 - 3) + ((7:ℝ) - 7) * (7 - 7)) ≤ 1 / 1000000 := by
    norm_num [Real.sqrt_zero]
  have hlen : (usableLines [(⟨7, 3, 7, 3⟩ : Line2D), ⟨7, 3, 7, 3⟩]).length < 2 := by
    simp [usableLines, Real.sqrt_zero]
  exact ⟨hn, compute_vanishing_point_correct.1 ⟨7, 3, 7, 3⟩ [⟨7, 3, 7, 3⟩] hn, hlen,
    (compute_vanishing_point_correct.2.1 _ hlen)⟩

/-- C5: `compute_pitch cy fy` returns `atan((cy - vp_y) / fy)` whenever
the vanishing point `(vp_x, vp_y)` is defined and is undefined whenever
the vanishing point is; on the concrete example with `cy = 480`,
`fy = 1000` it returns `atan((480 - 5) / 1000)` (≈ 0.4433 rad). -/
theorem compute_pitch_correct :
    (∀ (lines : List Line2D) (cy fy : ℝ),
      (compute_vanishing_point lines = none → compute_pitch lines cy fy = none) ∧
      (∀ vx vy : ℝ, compute_vanishing_point lines = some (vx, vy) →
        compute_pitch lines cy fy = some (Real.arctan ((cy - vy) / fy)))) ∧
    compute_pitch [⟨0, 0, 10, 10⟩, ⟨0, 10, 10, 0⟩] 480 1000 =
      some (Real.arctan ((480 - 5) / 1000)) := by
  constructor
  · intro lines cy fy
    constructor
    · intro h
      simp [compute_pitch, h]
    · intro vx vy h
      simp [compute_pitch, h]
  · simp [compute_pitch, vp_concrete]

/-- Closed instance of `compute_pitch_correct`: the concrete vanishing
point is `(5, 5)` and the resulting pitch is `atan(475/1000)`. -/
theorem compute_pitch_correct_witness :
    compute_vanishing_point [⟨0, 0, 10, 10⟩, ⟨0, 10, 10, 0⟩] = some (5, 5) ∧
    compute_pitch [⟨0, 0, 10, 10⟩, ⟨0, 10, 10, 0⟩] 480 1000 =
      some (Real.arctan ((480 - 5) / 1000)) :=
  ⟨vp_concrete, (compute_pitch_correct.1 _ 480 1000).2 5 5 vp_concrete⟩

/-- When a pixel `(u, v)` is the `bev_to_image` projection of a ground
point, the `image_to_bev` ray through it is the unit vector from the
camera mount towards that ground point. -/
lemma rayVeh_of_proj (cam : CameraParams) (x y u v : ℝ)
    (hfx : cam.fx ≠ 0) (hfy : cam.fy ≠ 0)
    (hzpos : 0 < camDepth cam x y)
    (hu : u = cam.fx * ((x - cam_x_pos) / camDepth cam x y) + cam.cx)
    (hv : v = cam.fy * ((cam.height * Real.cos cam.pitch -
        (y - cam_y_pos) * Real.sin cam.pitch) / camDepth cam x y) + cam.cy) :
    rayVeh cam u v =
      ((x - cam_x_pos) /
        Real.sqrt ((x - cam_x_pos) ^ 2 +
          (cam.height * Real.cos cam.pitch - (y - cam_y_pos) * Real.sin cam.pitch) ^ 2 +
          camDepth cam x y ^ 2),
       (y - cam_y_pos) /
        Real.sqrt ((x - cam_x_pos) ^ 2 +
          (cam.height * Real.cos cam.pitch - (y - cam_y_pos) * Real.sin cam.pitch) ^ 2 +
          camDepth cam x y ^ 2),
       -(cam.height /
        Real.sqrt ((x - cam_x_pos) ^ 2 +
          (cam.height * Real.cos cam.pitch - (y - cam_y_pos) * Real.sin cam.pitch) ^ 2 +
          camDepth cam x y ^ 2))) := by
  set C := Real.cos cam.pitch with hC
  set S := Real.sin cam.pitch with hS
  set Z := camDepth cam x y with hZ
  set X := x - cam_x_pos with hX
  set Y := cam.height * C - (y - cam_y_pos) * S with hY
  set N := Real.sqrt (X ^ 2 + Y ^ 2 + Z ^ 2) with hN
  have hZne : Z ≠ 0 := ne_of_gt hzpos
  have hNpos : 0 < N := Real.sqrt_pos.mpr (by positivity)
  have hNne : N ≠ 0 := ne_of_gt hNpos
  have hZdef : Z = cam.height * S + (y - cam_y_pos) * C := by
    rw [hZ, camDepth]
  have hsc : S ^ 2 + C ^ 2 = 1 := Real.sin_sq_add_cos_sq cam.pitch
  have hxn : (u - cam.cx) / cam.fx = X / Z := by
    rw [hu]
    field_simp
    ring
  have hyn : (v - cam.cy) / cam.fy = Y / Z := by
    rw [hv]
    field_simp
    ring
  have hsqN : N ^ 2 = X ^ 2 + Y ^ 2 + Z ^ 2 := by
    rw [hN]
    exact Real.sq_sqrt (by positivity)
  have harg : (X / Z) ^ 2 + (Y / Z) ^ 2 + 1 = (N / Z) ^ 2 := by
    rw [div_pow X Z, div_pow Y Z, div_pow N Z, hsqN]
    field_simp
  have hnrm : Real.sqrt (((u - cam.cx) / cam.fx) ^ 2 +
      ((v - cam.cy) / cam.fy) ^ 2 + 1) = N / Z := by
    rw [hxn, hyn, harg, Real.sqrt_sq (by positivity)]
  simp only [rayVeh]
  rw [Real.cos_neg, Real.sin_neg, ← hC, ← hS, hnrm, hxn, hyn]
  refine Prod.ext ?_ (Prod.ext ?_ ?_)
  · show X / Z / (N / Z) = X / N
    field_simp
  · show Y / Z / (N / Z) * -S + 1 / (N / Z) * C = (y - cam_y_pos) / N
    have e1 : Y / Z / (N / Z) = Y / N := by
      field_simp
    rw [e1, one_div_div]
    have hnum : Y * -S + Z * C = y - cam_y_pos := by
      rw [hZdef]
      linear_combination (y - cam_y_pos) * hsc
    calc Y / N * -S + Z / N * C = (Y * -S + Z * C) / N := by ring
      _ = (y - cam_y_pos) / N := by rw [hnum]
  · show -(Y / Z / (N / Z) * C - 1 / (N / Z) * -S) = -(cam.height / N)
    have e1 : Y / Z / (N / Z) = Y / N := by
      field_simp
    rw [e1, one_div_div]
    have hnum : Y * C - Z * -S = cam.height := by
      rw [hZdef]
      linear_combination cam.height * hsc
    calc -(Y / N * C - Z / N * -S) = -((Y * C - Z * -S) / N) := by ring
      _ = -(cam.height / N) := by rw [hnum]

/-- C6: every BEV ground point whose `bev_to_image` projection is defined
is recovered exactly (hence within any small tolerance) by `image_to_bev`
applied to that pixel, for any camera with positive mount height and
non-zero focal lengths. -/
theorem image_bev_roundtrip :
    ∀ (t : CoordinateTransformer) (x y u v : ℝ),
      0 < t.camera.height → t.camera.fx ≠ 0 → t.camera.fy ≠ 0 →
      bev_to_image t x y = some (u, v) →
      image_to_bev t u v = some (x, y) := by
  intro t x y u v hh hfx hfy hb
  simp only [bev_to_image] at hb
  split_ifs at hb with hz
  · have hzpos : 0 < camDepth t.camera x y := by
      have h1 := not_le.mp hz
      have h2 : (0 : ℝ) < 0.1 := by norm_num
      linarith
    rw [Option.some.injEq, Prod.mk.injEq] at hb
    obtain ⟨hu1, hv1⟩ := hb
    have hu : u = t.camera.fx * ((x - cam_x_pos) / camDepth t.camera x y) +
        t.camera.cx := hu1.symm
    have hv : v = t.camera.fy * ((t.camera.height * Real.cos t.camera.pitch -
        (y - cam_y_pos) * Real.sin t.camera.pitch) / camDepth t.camera x y) +
        t.camera.cy := hv1.symm
    have hray := rayVeh_of_proj t.camera x y u v hfx hfy hzpos hu hv
    set N := Real.sqrt ((x - cam_x_pos) ^ 2 +
      (t.camera.height * Real.cos t.camera.pitch -
        (y - cam_y_pos) * Real.sin t.camera.pitch) ^ 2 +
      camDepth t.camera x y ^ 2) with hN
    have hNpos : 0 < N := Real.sqrt_pos.mpr (by positivity)
    simp only [image_to_bev, hray]
    have hup : (0:ℝ) < t.camera.height / N := by positivity
    rw [if_neg (by push_neg; simpa using hup)]
    have htt : -t.camera.height / -(t.camera.height / N) = N := by
      rw [neg_div_neg_eq]
      field_simp
    rw [htt, if_neg (not_lt.mpr (le_of_lt hNpos))]
    have hxf : cam_x_pos + N * ((x - cam_x_pos) / N) = x := by
      field_simp
    have hyf : cam_y_pos + N * ((y - cam_y_pos) / N) = y := by
      field_simp
    rw [hxf, hyf]

/-- Closed instance of `image_bev_roundtrip`: with the default camera the
ground point `(0, 20)` projects to the pixel `(640, 6280/11)` and is
recovered exactly by `image_to_bev`. -/
theorem image_bev_roundtrip_witness :
    0 < transformerDefault.camera.height ∧
    transformerDefault.camera.fx ≠ 0 ∧
    transformerDefault.camera.fy ≠ 0 ∧
    bev_to_image transformerDefault 0 20 = some (640, 6280 / 11) ∧
    image_to_bev transformerDefault 640 (6280 / 11) = some (0, 20) := by
  have h1 : (0:ℝ) < transformerDefault.camera.height := by
    norm_num [transformerDefault, camDefault]
  have h2 : transformerDefault.camera.fx ≠ 0 := by
    norm_num [transformerDefault, camDefault]
  have h3 : transformerDefault.camera.fy ≠ 0 := by
    norm_num [transformerDefault, camDefault]
  have hb : bev_to_image transformerDefault 0 20 = some (640, 6280 / 11) := by
    simp only [bev_to_image, camDepth, transformerDefault, camDefault,
      cam_x_pos, cam_y_pos]
    norm_num [Real.sin_zero, Real.cos_zero]
  exact ⟨h1, h2, h3, hb,
    image_bev_roundtrip transformerDefault 0 20 640 (6280 / 11) h1 h2 h3 hb⟩

/-- C8 (amended): `bev_to_image`'s depth cutoff is the fixed strictly
positive constant `0.1` — every defined projection has depth above `0.1`
— while `image_to_bev`'s horizon cutoff compares the ray's up-component
against `0`, guaranteeing only strict negativity of the division's
denominator, not a positive lower bound on its magnitude. -/
theorem projection_guard_epsilons :
    (∀ (t : CoordinateTransformer) (x y : ℝ),
      bev_to_image t x y ≠ none → 0.1 < camDepth t.camera x y) ∧
    (∀ (t : CoordinateTransformer) (u v : ℝ),
      image_to_bev t u v ≠ none → rayUpComponent t.camera u v < 0) := by
  refine ⟨fun t x y h => ?_, fun t u v h => ?_⟩
  · by_contra hc
    push_neg at hc
    exact h (by simp only [bev_to_image]; rw [if_pos hc])
  · by_contra hc
    push_neg at hc
    unfold rayUpComponent at hc
    exact h (by simp only [image_to_bev]; rw [if_pos hc])

/-- Closed instance of `projection_guard_epsilons`: the default camera's
projection of `(0, 20)` is defined and its depth `16.5` exceeds `0.1`. -/
theorem projection_guard_epsilons_witness :
    bev_to_image transformerDefault 0 20 ≠ none ∧
    0.1 < camDepth transformerDefault.camera 0 20 := by
  have hne : bev_to_image transformerDefault 0 20 ≠ none := by
    intro hcon
    simp only [bev_to_image, camDepth, transformerDefault, camDefault,
      cam_x_pos, cam_y_pos] at hcon
    norm_num [Real.sin_zero, Real.cos_zero] at hcon
    exact Option.noConfusion hcon
  exact ⟨hne, projection_guard_epsilons.1 transformerDefault 0 20 hne⟩

/-- C8 is false as stated for `image_to_bev`: no strictly positive
epsilon bounds the up-component of rays with a defined ground
intersection away from zero — with the default camera, pixels just below
the principal point make the divisor arbitrarily small while the
projection stays defined. -/
theorem horizon_epsilon_counterexample :
    ¬ ∃ eps : ℝ, 0 < eps ∧
      ∀ u v : ℝ, image_to_bev transformerDefault u v ≠ none →
        rayUpComponent transformerDefault.camera u v ≤ -eps := by
  rintro ⟨eps, heps, hall⟩
  set d : ℝ := min (eps / 2) (1 / 2) with hd
  have hd0 : 0 < d := lt_min (by linarith) (by norm_num)
  have hdeps : d ≤ eps / 2 := min_le_left _ _
  have hsq1 : (1:ℝ) ≤ d ^ 2 + 1 := by nlinarith
  have hs1 : (1:ℝ) ≤ Real.sqrt (d ^ 2 + 1) := Real.one_le_sqrt.mpr hsq1
  have hspos : (0:ℝ) < Real.sqrt (d ^ 2 + 1) := by linarith
  have harg1 : ((640:ℝ) - 640.0) / 1000.0 = 0 := by norm_num
  have harg2 : ((480:ℝ) + 1000 * d - 480.0) / 1000.0 = d := by
    rw [show (480.0:ℝ) = 480 by norm_num, show (1000.0:ℝ) = 1000 by norm_num]
    field_simp
  have hraytriple : rayVeh transformerDefault.camera 640 (480 + 1000 * d) =
      (0, 1 / Real.sqrt (d ^ 2 + 1), -(d / Real.sqrt (d ^ 2 + 1))) := by
    simp only [rayVeh, transformerDefault, camDefault]
    rw [harg1, harg2]
    norm_num [Real.sin_zero, Real.cos_zero]
  have hne : image_to_bev transformerDefault 640 (480 + 1000 * d) ≠ none := by
    simp only [image_to_bev, hraytriple]
    have hneg : ¬ (0:ℝ) ≤ -(d / Real.sqrt (d ^ 2 + 1)) := by
      push_neg
      have : 0 < d / Real.sqrt (d ^ 2 + 1) := div_pos hd0 hspos
      linarith
    rw [if_neg hneg]
    have htpos : (0:ℝ) <
        -transformerDefault.camera.height / -(d / Real.sqrt (d ^ 2 + 1)) := by
      rw [neg_div_neg_eq]
      have hh : (0:ℝ) < transformerDefault.camera.height := by
        norm_num [transformerDefault, camDefault]
      exact div_pos hh (div_pos hd0 hspos)
    rw [if_neg (not_lt.mpr htpos.le)]
    simp
  have hrup : rayUpComponent transformerDefault.camera 640 (480 + 1000 * d) =
      -(d / Real.sqrt (d ^ 2 + 1)) := by
    unfold rayUpComponent
    rw [hraytriple]
  have hb := hall 640 (480 + 1000 * d) hne
  rw [hrup] at hb
  have h1 : eps ≤ d / Real.sqrt (d ^ 2 + 1) := by linarith
  have h2 : d / Real.sqrt (d ^ 2 + 1) ≤ d := div_le_self hd0.le hs1
  linarith

/-- Unfolding of the optimizer step from a state that already holds a
minimum. -/
lemma optStep_some (t : CoordinateTransformer) (pairs : List RPair)
    (b m vp : ℝ) :
    optStep t pairs (b, some m) vp =
      if 0 < candValid t pairs vp ∧ candError t pairs vp < m
      then (vp, some (candError t pairs vp)) else (b, some m) := rfl

/-- Unfolding of the optimizer step from the initial (infinite-minimum)
state. -/
lemma optStep_none (t : CoordinateTransformer) (pairs : List RPair)
    (b vp : ℝ) :
    optStep t pairs (b, none) vp =
      if 0 < candValid t pairs vp
      then (vp, some (candError t pairs vp)) else (b, none) := rfl

/-- Scan invariant once a candidate has been accepted: the final holder
is an accepted candidate whose error never exceeds that of the incoming
holder nor of any later candidate with a defined projection. -/
lemma optStep_foldl_some (t : CoordinateTransformer) (pairs : List RPair)
    (L : List ℝ) :
    ∀ b : ℝ, 0 < candValid t pairs b →
      (((L.foldl (optStep t pairs) (b, some (candError t pairs b))).1 = b ∨
        (L.foldl (optStep t pairs) (b, some (candError t pairs b))).1 ∈ L) ∧
       0 < candValid t pairs (L.foldl (optStep t pairs) (b, some (candError t pairs b))).1 ∧
       (L.foldl (optStep t pairs) (b, some (candError t pairs b))).2 =
         some (candError t pairs (L.foldl (optStep t pairs) (b, some (candError t pairs b))).1) ∧
       candError t pairs (L.foldl (optStep t pairs) (b, some (candError t pairs b))).1 ≤
         candError t pairs b ∧
       ∀ vp ∈ L, 0 < candValid t pairs vp →
         candError t pairs (L.foldl (optStep t pairs) (b, some (candError t pairs b))).1 ≤
           candError t pairs vp) := by
  induction L with
  | nil =>
    intro b hb
    exact ⟨Or.inl rfl, hb, rfl, le_refl _, by simp⟩
  | cons vp L ih =>
    intro b hb
    simp only [List.foldl_cons, optStep_some]
    by_cases hcond : 0 < candValid t pairs vp ∧
        candError t pairs vp < candError t pairs b
    · rw [if_pos hcond]
      obtain ⟨hmem, hval, hsome, hle, hall⟩ := ih vp hcond.1
      refine ⟨?_, hval, hsome, le_trans hle (le_of_lt hcond.2), ?_⟩
      · rcases hmem with h | h
        · refine Or.inr ?_
          rw [h]
          exact List.mem_cons_self vp L
        · exact Or.inr (List.mem_cons_of_mem vp h)
      · intro w hw hvw
        rcases List.mem_cons.mp hw with rfl | hw2
        · exact hle
        · exact hall w hw2 hvw
    · rw [if_neg hcond]
      obtain ⟨hmem, hval, hsome, hle, hall⟩ := ih b hb
      refine ⟨?_, hval, hsome, hle, ?_⟩
      · rcases hmem with h | h
        · exact Or.inl h
        · exact Or.inr (List.mem_cons_of_mem vp h)
      · intro w hw hvw
        rcases List.mem_cons.mp hw with rfl | hw2
        · have hnot : ¬ candError t pairs w < candError t pairs b :=
            fun hlt => hcond ⟨hvw, hlt⟩
          linarith [not_lt.mp hnot, hle]
        · exact hall w hw2 hvw

/-- Full scan characterization from the initial state: either no
candidate ever had a defined projection (and the holder is unchanged), or
the final holder is a candidate with a defined projection minimizing the
error among all such candidates. -/
lemma optStep_foldl_none (t : CoordinateTransformer) (pairs : List RPair)
    (L : List ℝ) :
    ∀ b0 : ℝ,
      ((L.foldl (optStep t pairs) (b0, none)) = (b0, none) ∧
        ∀ vp ∈ L, candValid t pairs vp = 0) ∨
      ((L.foldl (optStep t pairs) (b0, none)).1 ∈ L ∧
        0 < candValid t pairs (L.foldl (optStep t pairs) (b0, none)).1 ∧
        ∀ vp ∈ L, 0 < candValid t pairs vp →
          candError t pairs (L.foldl (optStep t pairs) (b0, none)).1 ≤
            candError t pairs vp) := by
  induction L with
  | nil =>
    intro b0
    exact Or.inl ⟨rfl, by simp⟩
  | cons vp L ih =>
    intro b0
    simp only [List.foldl_cons, optStep_none]
    by_cases hk : 0 < candValid t pairs vp
    · rw [if_pos hk]
      obtain ⟨hmem, hval, _, hle, hall⟩ := optStep_foldl_some t pairs L vp hk
      right
      refine ⟨?_, hval, ?_⟩
      · rcases hmem with h | h
        · rw [h]
          exact List.mem_cons_self vp L
        · exact List.mem_cons_of_mem vp h
      · intro w hw hvw
        rcases List.mem_cons.mp hw with rfl | hw2
        · exact hle
        · exact hall w hw2 hvw
    · rw [if_neg hk]
      rcases ih b0 with ⟨hr, hall⟩ | ⟨hmem, hval, hall⟩
      · left
        refine ⟨hr, ?_⟩
        intro w hw
        rcases List.mem_cons.mp hw with rfl | hw2
        · exact Nat.eq_zero_of_not_pos hk
        · exact hall w hw2
      · right
        refine ⟨List.mem_cons_of_mem vp hmem, hval, ?_⟩
        intro w hw hvw
        rcases List.mem_cons.mp hw with rfl | hw2
        · exact absurd hvw hk
        · exact hall w hw2 hvw

/-- C2 (amended): for a non-empty correspondence list, `optimize_pitch`
scans 101 evenly spaced candidates; each correspondence whose projection
is undefined contributes the fixed penalty `100000.0` to the candidate's
total error (the correspondence itself is never skipped); however the
minimization is restricted to candidates with at least one defined
projection — a candidate all of whose projections are undefined is
excluded from the arg-min (if every candidate is excluded, the unchanged
current vanishing-point y is kept) — and the pitch is permanently set to
`atan((cy - best_vp_y)/fy)`. -/
theorem optimize_pitch_correct :
    ∀ (t : CoordinateTransformer) (pairs : List RPair) (range : ℝ),
      pairs ≠ [] →
      (searchVals (currentVP t.camera) range).length = 101 ∧
      optimize_pitch t pairs range =
        (withPitch t (candPitch t.camera (bestVP t pairs range)),
         candPitch t.camera (bestVP t pairs range)) ∧
      (∀ (W : CoordinateTransformer) (p : RPair),
        bev_to_image W (radar_to_bev W p.radar_x p.radar_y).1
            (radar_to_bev W p.radar_x p.radar_y).2 = none →
          pairError W p = 100000.0) ∧
      (∀ vp : ℝ, candError t pairs vp =
        (pairs.map (pairError (withPitch t (candPitch t.camera vp)))).sum) ∧
      ((bestVP t pairs range = currentVP t.camera ∧
          ∀ vp ∈ searchVals (currentVP t.camera) range,
            candValid t pairs vp = 0) ∨
       (bestVP t pairs range ∈ searchVals (currentVP t.camera) range ∧
          0 < candValid t pairs (bestVP t pairs range) ∧
          ∀ vp ∈ searchVals (currentVP t.camera) range,
            0 < candValid t pairs vp →
              candError t pairs (bestVP t pairs range) ≤ candError t pairs vp)) := by
  intro t pairs range hne
  refine ⟨?_, ?_, ?_, fun vp => rfl, ?_⟩
  · unfold searchVals
    rw [List.length_map, List.length_range]
  · cases pairs with
    | nil => exact absurd rfl hne
    | cons p ps => rfl
  · intro W p h
    simp only [pairError, h]
  · rcases optStep_foldl_none t pairs (searchVals (currentVP t.camera) range)
        (currentVP t.camera) with ⟨hr, hall⟩ | ⟨hmem, hval, hall⟩
    · left
      refine ⟨?_, hall⟩
      unfold bestVP
      rw [hr]
    · right
      exact ⟨hmem, hval, hall⟩

/-- Closed instance of `optimize_pitch_correct` at a one-element
correspondence list. -/
theorem optimize_pitch_correct_witness :
    (([⟨3.6, 0, 640, 480⟩] : List RPair) ≠ []) ∧
    (searchVals (currentVP transformerDefault.camera) 50).length = 101 ∧
    optimize_pitch transformerDefault [⟨3.6, 0, 640, 480⟩] 50 =
      (withPitch transformerDefault
        (candPitch transformerDefault.camera
          (bestVP transformerDefault [⟨3.6, 0, 640, 480⟩] 50)),
       candPitch transformerDefault.camera
         (bestVP transformerDefault [⟨3.6, 0, 640, 480⟩] 50)) := by
  have hne : ([⟨3.6, 0, 640, 480⟩] : List RPair) ≠ [] := by simp
  exact ⟨hne,
    (optimize_pitch_correct transformerDefault [⟨3.6, 0, 640, 480⟩] 50 hne).1,
    (optimize_pitch_correct transformerDefault [⟨3.6, 0, 640, 480⟩] 50 hne).2.1⟩

/-- The counterexample correspondence's radar point maps to the BEV point
`(3.5, 3.6)` irrespective of the candidate pitch. -/
lemma pair_r2b (p : ℝ) :
    radar_to_bev (withPitch transformerDefault p) 3.6 0 = (3.5, 3.6) := by
  simp only [radar_to_bev, withPitch, transformerDefault, radarDefault]
  norm_num [Real.sin_zero, Real.cos_zero]

/-- Camera depth of the BEV point `(3.5, 3.6)` under candidate pitch
`arctan w`. -/
lemma cand_depth (w : ℝ) :
    camDepth (withPitch transformerDefault (Real.arctan w)).camera 3.5 3.6 =
      (1.5 * w + 0.1) / Real.sqrt (1 + w ^ 2) := by
  have hs : Real.sqrt (1 + w ^ 2) ≠ 0 :=
    ne_of_gt (Real.sqrt_pos.mpr (by positivity))
  simp only [camDepth, withPitch, transformerDefault, camDefault, cam_y_pos,
    Real.sin_arctan, Real.cos_arctan]
  rw [show (3.6:ℝ) - 3.5 = 0.1 by norm_num]
  field_simp

/-- The depth of the counterexample point clears the `0.1` cutoff exactly
when the candidate pitch is positive. -/
lemma cand_depth_le_iff (w : ℝ) :
    (1.5 * w + 0.1) / Real.sqrt (1 + w ^ 2) ≤ 0.1 ↔ w ≤ 0 := by
  have hspos : 0 < Real.sqrt (1 + w ^ 2) := Real.sqrt_pos.mpr (by positivity)
  have hs1 : 1 ≤ Real.sqrt (1 + w ^ 2) := Real.one_le_sqrt.mpr (by nlinarith)
  constructor
  · intro h
    by_contra hw
    push_neg at hw
    have hlt : Real.sqrt (1 + w ^ 2) < 1 + w := by
      rw [Real.sqrt_lt' (by linarith : (0:ℝ) < 1 + w)]
      nlinarith
    have h2 : (0.1:ℝ) * Real.sqrt (1 + w ^ 2) < 1.5 * w + 0.1 := by nlinarith
    have h3 : (0.1:ℝ) < (1.5 * w + 0.1) / Real.sqrt (1 + w ^ 2) := by
      rw [lt_div_iff₀ hspos]
      linarith
    linarith
  · intro hw
    rcases le_or_lt (1.5 * w + 0.1) 0 with hn | hp
    · have h1 : (1.5 * w + 0.1) / Real.sqrt (1 + w ^ 2) ≤ 0 :=
        div_nonpos_iff.mpr (Or.inr ⟨hn, hspos.le⟩)
      linarith
    · have h1 : (1.5 * w + 0.1) / Real.sqrt (1 + w ^ 2) ≤ 1.5 * w + 0.1 :=
        div_le_self hp.le hs1
      linarith

/-- With a non-positive candidate pitch the counterexample correspondence
fails to project: it contributes the fixed penalty and no valid count. -/
lemma pair_error_invalid (w : ℝ) (hw : w ≤ 0) :
    pairError (withPitch transformerDefault (Real.arctan w)) ⟨3.6, 0, 640, 480⟩ =
      100000.0 ∧
    pairValid (withPitch transformerDefault (Real.arctan w)) ⟨3.6, 0, 640, 480⟩ = 0 := by
  have hle : camDepth (withPitch transformerDefault (Real.arctan w)).camera 3.5 3.6 ≤
      0.1 := by
    rw [cand_depth]
    exact (cand_depth_le_iff w).mpr hw
  have hproj : bev_to_image (withPitch transformerDefault (Real.arctan w)) 3.5 3.6 =
      none := by
    simp only [bev_to_image]
    rw [if_pos hle]
  constructor
  · simp only [pairError, pair_r2b]
    rw [hproj]
  · simp only [pairValid, pair_r2b]
    rw [hproj]

/-- With a positive candidate pitch the counterexample correspondence
projects, contributing a valid count of one. -/
lemma pair_valid_one (w : ℝ) (hw : 0 < w) :
    pairValid (withPitch transformerDefault (Real.arctan w)) ⟨3.6, 0, 640, 480⟩ = 1 := by
  have hgt : ¬ camDepth (withPitch transformerDefault (Real.arctan w)).camera 3.5 3.6 ≤
      0.1 := by
    rw [cand_depth]
    intro h
    exact absurd ((cand_depth_le_iff w).mp h) (not_le.mpr hw)
  simp only [pairValid, pair_r2b, bev_to_image]
  rw [if_neg hgt]

/-- With a small positive candidate pitch the counterexample
correspondence projects far outside the image, so its squared
reprojection error is at least `4e8` — far larger than the `100000`
penalty of an undefined projection. -/
lemma pair_error_lower (w : ℝ) (hw0 : 0 < w) (hw1 : w ≤ 1 / 20) :
    (400000000:ℝ) ≤
      pairError (withPitch transformerDefault (Real.arctan w)) ⟨3.6, 0, 640, 480⟩ := by
  have hspos : 0 < Real.sqrt (1 + w ^ 2) := Real.sqrt_pos.mpr (by positivity)
  have hs1 : 1 ≤ Real.sqrt (1 + w ^ 2) := Real.one_le_sqrt.mpr (by nlinarith)
  have hz01 : (0.1:ℝ) < (1.5 * w + 0.1) / Real.sqrt (1 + w ^ 2) := by
    have := (cand_depth_le_iff w).not
    rcases lt_or_le (0.1:ℝ) ((1.5 * w + 0.1) / Real.sqrt (1 + w ^ 2)) with h | h
    · exact h
    · exact absurd ((cand_depth_le_iff w).mp h) (not_le.mpr hw0)
  have hz0 : (0:ℝ) < (1.5 * w + 0.1) / Real.sqrt (1 + w ^ 2) := by linarith
  have hzup : (1.5 * w + 0.1) / Real.sqrt (1 + w ^ 2) ≤ 0.175 := by
    have h1 : (1.5 * w + 0.1) / Real.sqrt (1 + w ^ 2) ≤ 1.5 * w + 0.1 :=
      div_le_self (by linarith) hs1
    linarith
  have hgt : ¬ camDepth (withPitch transformerDefault
      (Real.arctan w)).camera 3.5 3.6 ≤ 0.1 := by
    rw [cand_depth]
    linarith
  have h35 : (20:ℝ) ≤ 3.5 / ((1.5 * w + 0.1) / Real.sqrt (1 + w ^ 2)) := by
    rw [le_div_iff₀ hz0]
    linarith
  simp only [pairError, pair_r2b, bev_to_image]
  rw [if_neg hgt]
  simp only [withPitch, transformerDefault, camDefault, cam_x_pos]
  have hcd :
      camDepth ⟨1.5, Real.arctan w, 1000.0, 1000.0, 640.0, 480.0⟩ 3.5 3.6 =
      (1.5 * w + 0.1) / Real.sqrt (1 + w ^ 2) := cand_depth w
  rw [hcd]
  set z := (1.5 * w + 0.1) / Real.sqrt (1 + w ^ 2) with hzdef
  have hX : (20000:ℝ) ≤ 1000.0 * ((3.5 - 0.0) / z) + 640.0 - 640 := by
    rw [show (3.5:ℝ) - 0.0 = 3.5 by norm_num]
    nlinarith
  nlinarith [sq_nonneg (1000.0 * ((3.5 - 0.0) / z) + 640.0 - 640 - 20000),
    sq_nonneg (1000.0 * ((1.5 * Real.cos (Real.arctan w) -
      (3.6 - cam_y_pos) * Real.sin (Real.arctan w)) / z) + 480.0 - 480)]

/-- Candidate-level error and valid count for the one-correspondence
counterexample setup, expressed through the candidate pitch `arctan w`
with `w = (480 - vp) / 1000`. -/
lemma cand_setup (vp : ℝ) :
    candError transformerDefault [⟨3.6, 0, 640, 480⟩] vp =
      pairError (withPitch transformerDefault (Real.arctan ((480 - vp) / 1000)))
        ⟨3.6, 0, 640, 480⟩ ∧
    candValid transformerDefault [⟨3.6, 0, 640, 480⟩] vp =
      pairValid (withPitch transformerDefault (Real.arctan ((480 - vp) / 1000)))
        ⟨3.6, 0, 640, 480⟩ := by
  have hcp : candPitch transformerDefault.camera vp =
      Real.arctan ((480 - vp) / 1000) := by
    simp only [candPitch, transformerDefault, camDefault]
    norm_num
  constructor
  · simp [candError, hcp]
  · simp [candValid, hcp]

/-- C2 is false as stated: in the concrete one-correspondence setup the
kept candidate does not minimize the total error over all 101 candidates
— the candidate `vp_y = 530` (whose only projection is undefined) has
total error `100000`, strictly below the error of the kept candidate,
which exceeds `4e8`. -/
theorem optimize_pitch_counterexample :
    ¬ (∀ vp ∈ searchVals (currentVP transformerDefault.camera) 50,
        candError transformerDefault [⟨3.6, 0, 640, 480⟩]
            (bestVP transformerDefault [⟨3.6, 0, 640, 480⟩] 50) ≤
          candError transformerDefault [⟨3.6, 0, 640, 480⟩] vp) := by
  intro hall
  have hcvp : currentVP transformerDefault.camera = 480 := by
    simp only [currentVP, transformerDefault, camDefault]
    norm_num [Real.tan_zero]
  have hmem430 : (430:ℝ) ∈ searchVals 480 50 :=
    List.mem_map.mpr ⟨0, List.mem_range.mpr (by norm_num), by norm_num⟩
  have hmem530 : (530:ℝ) ∈ searchVals 480 50 :=
    List.mem_map.mpr ⟨100, List.mem_range.mpr (by norm_num), by push_cast; norm_num⟩
  have hge : ∀ vp ∈ searchVals 480 50, (430:ℝ) ≤ vp := by
    intro vp hvp
    obtain ⟨i, _, rfl⟩ := List.mem_map.mp hvp
    have hi : (0:ℝ) ≤ (i:ℝ) := Nat.cast_nonneg i
    nlinarith
  have hinv : ∀ vp : ℝ, (480:ℝ) ≤ vp →
      candError transformerDefault [⟨3.6, 0, 640, 480⟩] vp = 100000.0 ∧
      candValid transformerDefault [⟨3.6, 0, 640, 480⟩] vp = 0 := by
    intro vp h
    have hw : (480 - vp) / 1000 ≤ 0 := by
      apply div_nonpos_iff.mpr
      right
      constructor
      · linarith
      · norm_num
    exact ⟨(cand_setup vp).1.trans (pair_error_invalid _ hw).1,
      (cand_setup vp).2.trans (pair_error_invalid _ hw).2⟩
  have hvalpos : ∀ vp : ℝ, vp < 480 →
      0 < candValid transformerDefault [⟨3.6, 0, 640, 480⟩] vp := by
    intro vp h
    have hw : 0 < (480 - vp) / 1000 := div_pos (by linarith) (by norm_num)
    rw [(cand_setup vp).2, pair_valid_one _ hw]
    norm_num
  have hlow : ∀ vp : ℝ, 430 ≤ vp → vp < 480 →
      (400000000:ℝ) ≤ candError transformerDefault [⟨3.6, 0, 640, 480⟩] vp := by
    intro vp h1 h2
    have hw0 : 0 < (480 - vp) / 1000 := div_pos (by linarith) (by norm_num)
    have hw1 : (480 - vp) / 1000 ≤ 1 / 20 := by
      rw [div_le_div_iff₀ (by norm_num) (by norm_num)]
      linarith
    rw [(cand_setup vp).1]
    exact pair_error_lower _ hw0 hw1
  have hbest : bestVP transformerDefault [⟨3.6, 0, 640, 480⟩] 50 =
      ((searchVals 480 50).foldl
        (optStep transformerDefault [⟨3.6, 0, 640, 480⟩]) (480, none)).1 := by
    rw [bestVP, hcvp]
  rcases optStep_foldl_none transformerDefault [⟨3.6, 0, 640, 480⟩]
      (searchVals 480 50) 480 with ⟨_, hzero⟩ | ⟨hmem, hval, _⟩
  · have h430 := hzero 430 hmem430
    have := hvalpos 430 (by norm_num)
    omega
  · set B := ((searchVals 480 50).foldl
      (optStep transformerDefault [⟨3.6, 0, 640, 480⟩]) (480, none)).1 with hB
    have hB480 : B < 480 := by
      by_contra hc
      push_neg at hc
      have := (hinv B hc).2
      omega
    have hB430 : (430:ℝ) ≤ B := hge B hmem
    have hBlow := hlow B hB430 hB480
    have h530 := (hinv 530 (by norm_num)).1
    have hcmp := hall 530 (by rw [hcvp]; exact hmem530)
    rw [hbest] at hcmp
    rw [h530] at hcmp
    have : (100000.0:ℝ) < 400000000 := by norm_num
    linarith
